import Mathlib

/-!
Verification of the windows-storage scanning engine.

A shallow embedding of `src/src-tauri/src/lib.rs`: the recursive size
aggregator (`calc_size`), the fast non-recursive lister
(`scan_directory_fast` with `direct_child_count`), and the volume
enumerator (`get_drives`).

The filesystem seen through `fs::read_dir` is modelled by the nested
inductive `Item`: each slot yielded by the directory iterator is either
an enumeration error (`err`, dropped by `flatten`), an entry whose
`symlink_metadata` call fails (`noMeta`), a regular file with its byte
length, a real directory with the outcome of reading it (`none` when
`read_dir` on it fails), or any other entry type (`other`: symlink,
device, socket, junction), carrying the contents its target would expose
if a traversal followed it.  `u64` values are modelled as `Nat`; the
claims under study never exercise wrap-around.
-/

inductive Item : Type where
  | err : Item
  | noMeta (name : String) : Item
  | file (name : String) (size : Nat) : Item
  | dir (name : String) (listing : Option (List Item)) : Item
  | other (name : String) (target : Option (List Item)) : Item
deriving Repr

/-- The loop body of `calc_size` over the slots of one directory iterator:
`err` slots vanish under `flatten`; `noMeta` entries are `continue`d over;
every readable entry counts once; directories recurse (an unreadable child
directory contributes `(0, 0)` from the recursive `calc_size`); regular
files add their byte length; anything else adds nothing further. -/
def calc_items : List Item → Nat × Nat
  | [] => (0, 0)
  | .err :: rest => calc_items rest
  | .noMeta _ :: rest => calc_items rest
  | .file _ sz :: rest =>
      let r := calc_items rest
      (sz + r.1, 1 + r.2)
  | .dir _ none :: rest =>
      let r := calc_items rest
      (r.1, 1 + r.2)
  | .dir _ (some l) :: rest =>
      let s := calc_items l
      let r := calc_items rest
      (s.1 + r.1, 1 + s.2 + r.2)
  | .other _ _ :: rest =>
      let r := calc_items rest
      (r.1, 1 + r.2)

/-- The function `calc_size` from the source: `fs::read_dir` failing on the root yields
`(0, 0)`; otherwise the loop over the iterator accumulates. -/
def calc_size : Option (List Item) → Nat × Nat
  | none => (0, 0)
  | some items => calc_items items

structure FolderSize where
  size : Nat
  item_count : Nat
deriving Repr, DecidableEq

/-- The command `get_folder_size`: wraps `calc_size` in `Ok`.  (The `spawn_blocking`
transport is not modelled; its join error is the only other outcome.) -/
def get_folder_size (root : Option (List Item)) : Except String FolderSize :=
  .ok ⟨(calc_size root).1, (calc_size root).2⟩

/-- Contributions of list slots are independent and add up. -/
theorem calc_items_append (xs ys : List Item) :
    calc_items (xs ++ ys) =
      ((calc_items xs).1 + (calc_items ys).1, (calc_items xs).2 + (calc_items ys).2) := by
  induction xs with
  | nil => simp [calc_items]
  | cons i rest ih =>
      cases i with
      | err => simpa [calc_items] using ih
      | noMeta n => simpa [calc_items] using ih
      | file n sz => simp [calc_items, ih]; omega
      | dir n listing =>
          cases listing with
          | none => simp [calc_items, ih]; omega
          | some l => simp [calc_items, ih]; omega
      | other n t => simp [calc_items, ih]; omega

/-!
Spec-side reference functions for the aggregate (claim C1).

The next three definitions follow the spec's words, not the source:
the byte total of "all regular files reachable from the root by following
only real (non-symlink) directory entries", the count of "all reachable
entries (files, directories, and other types) under the root, excluding
the root itself", and the absence of any enumeration or metadata failure
in a subtree (the situation the claim's universal sentence describes;
failures are the subject of C2).
-/

/-- Modelled from the spec: sum of the byte lengths of all regular files
reachable by following only real directory entries. -/
def spec_reachable_size : List Item → Nat
  | [] => 0
  | .file _ sz :: rest => sz + spec_reachable_size rest
  | .dir _ (some l) :: rest => spec_reachable_size l + spec_reachable_size rest
  | .dir _ none :: rest => spec_reachable_size rest
  | .err :: rest => spec_reachable_size rest
  | .noMeta _ :: rest => spec_reachable_size rest
  | .other _ _ :: rest => spec_reachable_size rest

/-- Modelled from the spec: number of all reachable entries (files,
directories and other types) under the root, the root excluded.  An `err`
slot is no entry; every other slot is one entry, and real directories
contribute their reachable entries as well. -/
def spec_reachable_count : List Item → Nat
  | [] => 0
  | .err :: rest => spec_reachable_count rest
  | .dir _ (some l) :: rest => 1 + spec_reachable_count l + spec_reachable_count rest
  | .dir _ none :: rest => 1 + spec_reachable_count rest
  | .file _ _ :: rest => 1 + spec_reachable_count rest
  | .noMeta _ :: rest => 1 + spec_reachable_count rest
  | .other _ _ :: rest => 1 + spec_reachable_count rest

/-- A subtree with no failed enumeration slot, no failed metadata read and
no unreadable child directory. -/
def clean : List Item → Bool
  | [] => true
  | .err :: _ => false
  | .noMeta _ :: _ => false
  | .file _ _ :: rest => clean rest
  | .dir _ none :: _ => false
  | .dir _ (some l) :: rest => clean l && clean rest
  | .other _ _ :: rest => clean rest

theorem calc_items_clean (items : List Item) (h : clean items = true) :
    calc_items items = (spec_reachable_size items, spec_reachable_count items) := by
  induction items using calc_items.induct with
  | case1 => simp [calc_items, spec_reachable_size, spec_reachable_count]
  | case2 rest _ => simp [clean] at h
  | case3 n rest _ => simp [clean] at h
  | case4 n sz rest ih =>
      simp only [clean] at h
      simp [calc_items, spec_reachable_size, spec_reachable_count, ih h]
  | case5 n rest _ => simp [clean] at h
  | case6 n l rest ihl ihr =>
      simp only [clean, Bool.and_eq_true] at h
      simp [calc_items, spec_reachable_size, spec_reachable_count, ihl h.1, ihr h.2]
  | case7 n t rest ih =>
      simp only [clean] at h
      simp [calc_items, spec_reachable_size, spec_reachable_count, ih h]

theorem calc_size_flat_files (files : List (String × Nat)) :
    calc_size (some (files.map fun p => Item.file p.1 p.2))
      = ((files.map Prod.snd).sum, files.length) := by
  induction files with
  | nil => simp [calc_size, calc_items]
  | cons p rest ih =>
      simp only [calc_size, List.map_cons] at ih ⊢
      simp [calc_items, ih]
      omega

/-- C1: on a subtree free of read failures, `calc_size` returns exactly the
spec's aggregate: the byte sum of all reachable regular files and the count
of all reachable entries excluding the root; in particular a flat directory
of N regular files yields the sum of their sizes and count N, and a
directory holding only a subdirectory with one file of size S yields
`(S, 2)`. -/
theorem aggregate_size_matches_spec :
    (∀ items : List Item, clean items = true →
        calc_size (some items) = (spec_reachable_size items, spec_reachable_count items))
    ∧ (∀ files : List (String × Nat),
        calc_size (some (files.map fun p => Item.file p.1 p.2))
          = ((files.map Prod.snd).sum, files.length))
    ∧ (∀ (b f : String) (S : Nat),
        calc_size (some [Item.dir b (some [Item.file f S])]) = (S, 2)) := by
  refine ⟨fun items h => ?_, calc_size_flat_files, fun b f S => ?_⟩
  · simpa [calc_size] using calc_items_clean items h
  · simp [calc_size, calc_items]

theorem aggregate_size_matches_spec_witness :
    clean [Item.dir "B" (some [Item.file "f" 5]), Item.file "a" 3] = true
    ∧ calc_size (some [Item.dir "B" (some [Item.file "f" 5]), Item.file "a" 3]) = (8, 3) := by
  have hc : clean [Item.dir "B" (some [Item.file "f" 5]), Item.file "a" 3] = true := by
    simp [clean]
  refine ⟨hc, ?_⟩
  rw [aggregate_size_matches_spec.1 _ hc]
  simp [spec_reachable_size, spec_reachable_count]

/-- C2: an unopenable root yields `{size := 0, item_count := 0}` and never
an error, and an entry whose symlink-aware metadata read fails is skipped —
it contributes nothing, anywhere in a directory's listing, and the rest of
the walk proceeds unchanged. -/
theorem aggregate_size_error_policy :
    get_folder_size none = .ok ⟨0, 0⟩
    ∧ calc_size none = (0, 0)
    ∧ (∀ (pre post : List Item) (n : String),
        calc_items (pre ++ Item.noMeta n :: post) = calc_items (pre ++ post)) := by
  refine ⟨by simp [get_folder_size, calc_size], by simp [calc_size], fun pre post n => ?_⟩
  simp [calc_items_append, calc_items]

/-- C7: a readable entry that is neither a regular file nor a real
directory (symlink, device, socket, junction) is never recursed into —
the result does not depend on what its target would expose — and it
contributes exactly one to `item_count` and zero to `size`. -/
theorem aggregate_size_other_entries :
    ∀ (pre post : List Item) (n : String) (t tAlt : Option (List Item)),
      calc_items (pre ++ Item.other n t :: post)
          = calc_items (pre ++ Item.other n tAlt :: post)
      ∧ (calc_items (pre ++ Item.other n t :: post)).1 = (calc_items (pre ++ post)).1
      ∧ (calc_items (pre ++ Item.other n t :: post)).2
          = (calc_items (pre ++ post)).2 + 1 := by
  intro pre post n t tAlt
  refine ⟨by simp [calc_items_append, calc_items], ?_, ?_⟩
  · simp [calc_items_append, calc_items]
  · simp [calc_items_append, calc_items]
    omega

/-!
Phase 1: the fast lister (`scan_directory_fast`).
-/

structure FsEntry where
  name : String
  path : String
  size : Nat
  is_dir : Bool
  item_count : Nat
deriving Repr, DecidableEq

/-- The helper `direct_child_count`: `fs::read_dir(path).map(|rd| rd.count()).unwrap_or(0)`.
The iterator's `count` consumes every slot, erroneous ones included, with no
type filtering. -/
def direct_child_count : Option (List Item) → Nat
  | none => 0
  | some l => l.length

/-- The per-slot body of `scan_directory_fast`: `flatten` drops erroneous
slots, a failed `symlink_metadata` yields `None`, directories get the
placeholder size `0` and their direct child count, regular files their
byte length, and every other type yields `None`. -/
def scanEntry (parent : String) : Item → Option FsEntry
  | .err => none
  | .noMeta _ => none
  | .file n sz =>
      some { name := n, path := parent ++ "/" ++ n, size := sz,
             is_dir := false, item_count := 0 }
  | .dir n listing =>
      some { name := n, path := parent ++ "/" ++ n, size := 0,
             is_dir := true, item_count := direct_child_count listing }
  | .other _ _ => none

/-- A string lower-cased, as its character sequence. -/
def lowerChars (s : String) : List Char := s.data.map Char.toLower

/-- Rust's lexicographic order on character sequences, read as
"`cmp` is not `Greater`": compare code points position by position, a
strict prefix sorting first. -/
def lexLe : List Char → List Char → Bool
  | [], _ => true
  | _ :: _, [] => false
  | a :: as, b :: bs =>
      if a.toNat < b.toNat then true
      else if b.toNat < a.toNat then false
      else lexLe as bs

/-- The `sort_by` comparator of `scan_directory_fast`, read as "not
Greater": `b.is_dir.cmp(&a.is_dir).then_with(|| a.name.to_lowercase()
.cmp(&b.name.to_lowercase()))`.  Directories (`is_dir = true`) come
first; ties compare lower-cased names. -/
def scanLe (a b : FsEntry) : Bool :=
  if a.is_dir = b.is_dir then lexLe (lowerChars a.name) (lowerChars b.name) else a.is_dir

theorem lexLe_total (x y : List Char) : lexLe x y || lexLe y x := by
  induction x generalizing y with
  | nil => simp [lexLe]
  | cons a as ih =>
      cases y with
      | nil => simp [lexLe]
      | cons b bs =>
          simp only [lexLe]
          rcases Nat.lt_trichotomy a.toNat b.toNat with h | h | h
          · simp [h]
          · simp [h, Nat.lt_irrefl, ih bs]
          · simp [h, Nat.lt_asymm h]

theorem lexLe_trans {x y z : List Char} (h1 : lexLe x y) (h2 : lexLe y z) :
    lexLe x z := by
  induction x generalizing y z with
  | nil => simp [lexLe]
  | cons a as ih =>
      cases y with
      | nil => simp [lexLe] at h1
      | cons b bs =>
          cases z with
          | nil => simp [lexLe] at h2
          | cons c cs =>
              simp only [lexLe] at h1 h2 ⊢
              rcases Nat.lt_trichotomy a.toNat b.toNat with hab | hab | hab
              · rcases Nat.lt_trichotomy b.toNat c.toNat with hbc | hbc | hbc
                · simp [show a.toNat < c.toNat by omega]
                · simp [show a.toNat < c.toNat by omega]
                · simp [show ¬ b.toNat < c.toNat by omega, hbc] at h2
              · simp only [show ¬ a.toNat < b.toNat by omega,
                  show ¬ b.toNat < a.toNat by omega, if_false] at h1
                rcases Nat.lt_trichotomy b.toNat c.toNat with hbc | hbc | hbc
                · simp [show a.toNat < c.toNat by omega]
                · simp only [show ¬ b.toNat < c.toNat by omega,
                    show ¬ c.toNat < b.toNat by omega, if_false] at h2
                  simp only [show ¬ a.toNat < c.toNat by omega,
                    show ¬ c.toNat < a.toNat by omega, if_false]
                  exact ih h1 h2
                · simp [show ¬ b.toNat < c.toNat by omega, hbc] at h2
              · simp [show ¬ a.toNat < b.toNat by omega, hab] at h1

/-- The command `scan_directory_fast`: fail with the OS message when the directory
itself cannot be opened; otherwise classify the children and sort with the
stable comparator. -/
def scan_directory_fast (parent : String) (rd : Except String (List Item)) :
    Except String (List FsEntry) :=
  match rd with
  | .error e => .error e
  | .ok items => .ok ((items.filterMap (scanEntry parent)).mergeSort scanLe)

theorem scanLe_total (a b : FsEntry) : scanLe a b || scanLe b a := by
  cases ha : a.is_dir <;> cases hb : b.is_dir <;>
    simp [scanLe, ha, hb] <;>
      simpa using lexLe_total (lowerChars a.name) (lowerChars b.name)

theorem scanLe_trans (a b c : FsEntry) (h1 : scanLe a b) (h2 : scanLe b c) :
    scanLe a c := by
  cases ha : a.is_dir <;> cases hb : b.is_dir <;> cases hc : c.is_dir <;>
    simp_all [scanLe] <;> exact lexLe_trans h1 h2

/-- The ordering the spec requires of a listing: directories strictly
before files, and inside a group case-insensitive lexicographic names. -/
def entryOrder (a b : FsEntry) : Prop :=
  (a.is_dir = true ∧ b.is_dir = false)
  ∨ (a.is_dir = b.is_dir ∧ lexLe (lowerChars a.name) (lowerChars b.name) = true)

instance : DecidableRel entryOrder := fun a b => by
  unfold entryOrder; infer_instance

theorem scanLe_entryOrder {a b : FsEntry} (h : scanLe a b = true) : entryOrder a b := by
  by_cases hd : a.is_dir = b.is_dir
  · exact .inr ⟨hd, by simpa [scanLe, hd] using h⟩
  · have ha : a.is_dir = true := by simpa [scanLe, hd] using h
    refine .inl ⟨ha, ?_⟩
    cases hb : b.is_dir with
    | false => rfl
    | true => exact absurd (ha.trans hb.symm) hd

/-- C3: a successful listing is totally ordered: every directory entry
precedes every file entry, and inside each group names are in
case-insensitive lexicographic order. -/
theorem list_children_sorted (parent : String) (rd : Except String (List Item))
    (es : List FsEntry) (h : scan_directory_fast parent rd = .ok es) :
    es.Pairwise entryOrder := by
  match rd with
  | .error e => simp [scan_directory_fast] at h
  | .ok items =>
      simp only [scan_directory_fast, Except.ok.injEq] at h
      subst h
      exact (List.sorted_mergeSort scanLe_trans scanLe_total
        (items.filterMap (scanEntry parent))).imp fun hab => scanLe_entryOrder hab

unseal List.merge List.mergeSort in
theorem list_children_sorted_witness :
    scan_directory_fast "p" (.ok [Item.file "b" 1, Item.dir "A" (some []), Item.file "a" 2])
        = .ok [⟨"A", "p/A", 0, true, 0⟩, ⟨"a", "p/a", 2, false, 0⟩, ⟨"b", "p/b", 1, false, 0⟩]
    ∧ List.Pairwise entryOrder
        [⟨"A", "p/A", 0, true, 0⟩, ⟨"a", "p/a", 2, false, 0⟩, ⟨"b", "p/b", 1, false, 0⟩] := by
  have h : scan_directory_fast "p"
      (.ok [Item.file "b" 1, Item.dir "A" (some []), Item.file "a" 2])
      = .ok [⟨"A", "p/A", 0, true, 0⟩, ⟨"a", "p/a", 2, false, 0⟩, ⟨"b", "p/b", 1, false, 0⟩] := by
    rfl
  exact ⟨h, list_children_sorted "p" _ _ h⟩

/-- The children `scan_directory_fast` keeps: real directories and regular
files; erroneous slots, unreadable metadata and all other types are
dropped. -/
def scanKeep : Item → Bool
  | .file _ _ => true
  | .dir _ _ => true
  | _ => false

theorem mem_scan_source {parent : String} {items : List Item} {es : List FsEntry}
    (h : scan_directory_fast parent (.ok items) = .ok es) {e : FsEntry} (he : e ∈ es) :
    ∃ i, i ∈ items ∧ scanEntry parent i = some e := by
  simp only [scan_directory_fast, Except.ok.injEq] at h
  subst h
  rw [List.mem_mergeSort] at he
  exact List.mem_filterMap.mp he

theorem filterMap_scanEntry_length (parent : String) (items : List Item) :
    (items.filterMap (scanEntry parent)).length = items.countP scanKeep := by
  induction items with
  | nil => simp
  | cons i rest ih =>
      cases i <;> simp [scanEntry, scanKeep, List.countP_cons, ih]

/-- C4: in a successful listing, every directory entry carries the
placeholder size `0`; every non-directory entry stems from a regular file
child, carries that file's byte length and `item_count = 0`; and children
of any other type are omitted, so the listing is exactly as long as the
number of regular-file and directory children. -/
theorem list_children_entry_shape (parent : String) (items : List Item)
    (es : List FsEntry) (h : scan_directory_fast parent (.ok items) = .ok es) :
    (∀ e ∈ es,
      (e.is_dir = true → e.size = 0)
      ∧ (e.is_dir = false →
          e.item_count = 0 ∧ ∃ n sz, Item.file n sz ∈ items ∧ e.name = n ∧ e.size = sz))
    ∧ es.length = items.countP scanKeep := by
  refine ⟨fun e he => ?_, ?_⟩
  · obtain ⟨i, hi, hsc⟩ := mem_scan_source h he
    cases i with
    | err => simp [scanEntry] at hsc
    | noMeta n => simp [scanEntry] at hsc
    | other n t => simp [scanEntry] at hsc
    | file n sz =>
        simp only [scanEntry, Option.some.injEq] at hsc
        subst hsc
        exact ⟨fun hd => by simp at hd, fun _ => ⟨rfl, n, sz, hi, rfl, rfl⟩⟩
    | dir n listing =>
        simp only [scanEntry, Option.some.injEq] at hsc
        subst hsc
        exact ⟨fun _ => rfl, fun hd => by simp at hd⟩
  · simp only [scan_directory_fast, Except.ok.injEq] at h
    subst h
    simp [filterMap_scanEntry_length]

unseal List.merge List.mergeSort in
theorem list_children_entry_shape_witness :
    scan_directory_fast "p" (.ok [Item.file "a" 7, Item.other "s" none])
        = .ok [⟨"a", "p/a", 7, false, 0⟩]
    ∧ ((⟨"a", "p/a", 7, false, 0⟩ : FsEntry).item_count = 0
        ∧ ∃ n sz, Item.file n sz ∈ [Item.file "a" 7, Item.other "s" none]
            ∧ (⟨"a", "p/a", 7, false, 0⟩ : FsEntry).name = n
            ∧ (⟨"a", "p/a", 7, false, 0⟩ : FsEntry).size = sz)
    ∧ [(⟨"a", "p/a", 7, false, 0⟩ : FsEntry)].length
        = [Item.file "a" 7, Item.other "s" none].countP scanKeep := by
  have h : scan_directory_fast "p" (.ok [Item.file "a" 7, Item.other "s" none])
      = .ok [⟨"a", "p/a", 7, false, 0⟩] := by rfl
  have hmain := list_children_entry_shape "p" _ _ h
  exact ⟨h, (hmain.1 _ (by simp)).2 rfl, hmain.2⟩

/-- C5: `direct_child_count` counts every slot of a plain listing with no
type filtering and yields `0` when the child directory cannot be opened;
each directory entry of a successful listing carries exactly that count
for its own directory child. -/
theorem list_children_dir_counts :
    (direct_child_count none = 0)
    ∧ (∀ l : List Item, direct_child_count (some l) = l.length)
    ∧ (∀ (parent : String) (items : List Item) (es : List FsEntry),
        scan_directory_fast parent (.ok items) = .ok es →
        ∀ e ∈ es, e.is_dir = true →
          ∃ n listing, Item.dir n listing ∈ items ∧ e.name = n
            ∧ e.item_count = direct_child_count listing) := by
  refine ⟨rfl, fun l => rfl, fun parent items es h e he hd => ?_⟩
  obtain ⟨i, hi, hsc⟩ := mem_scan_source h he
  cases i with
  | err => simp [scanEntry] at hsc
  | noMeta n => simp [scanEntry] at hsc
  | other n t => simp [scanEntry] at hsc
  | file n sz =>
      simp only [scanEntry, Option.some.injEq] at hsc
      subst hsc
      simp at hd
  | dir n listing =>
      simp only [scanEntry, Option.some.injEq] at hsc
      subst hsc
      exact ⟨n, listing, hi, rfl, rfl⟩

unseal List.merge List.mergeSort in
theorem list_children_dir_counts_witness :
    scan_directory_fast "p"
        (.ok [Item.dir "D" (some [Item.err, Item.other "s" none, Item.file "f" 1])])
        = .ok [⟨"D", "p/D", 0, true, 3⟩]
    ∧ ∃ n listing,
        Item.dir n listing
            ∈ [Item.dir "D" (some [Item.err, Item.other "s" none, Item.file "f" 1])]
        ∧ (⟨"D", "p/D", 0, true, 3⟩ : FsEntry).name = n
        ∧ (⟨"D", "p/D", 0, true, 3⟩ : FsEntry).item_count = direct_child_count listing := by
  have h : scan_directory_fast "p"
      (.ok [Item.dir "D" (some [Item.err, Item.other "s" none, Item.file "f" 1])])
      = .ok [⟨"D", "p/D", 0, true, 3⟩] := by rfl
  exact ⟨h, list_children_dir_counts.2.2 "p" _ _ h _ (by simp) rfl⟩

/-- C6: the listing fails exactly when the directory itself cannot be
opened, and then carries the OS message through unchanged; once the
directory is open the call returns `Ok` whatever the children hold, and a
child whose metadata read fails is merely omitted. -/
theorem list_children_error_iff (parent : String) :
    (∀ msg : String, scan_directory_fast parent (.error msg) = .error msg)
    ∧ (∀ items : List Item, ∃ es, scan_directory_fast parent (.ok items) = .ok es)
    ∧ (∀ (pre post : List Item) (n : String),
        scan_directory_fast parent (.ok (pre ++ Item.noMeta n :: post))
          = scan_directory_fast parent (.ok (pre ++ post))) := by
  refine ⟨fun msg => rfl, fun items => ⟨_, rfl⟩, fun pre post n => ?_⟩
  simp [scan_directory_fast, List.filterMap_append, scanEntry]

/-- C10: a slot the directory iterator itself yields as an error is
silently dropped by both operations: the aggregate totals and the listing
are those of the remaining children, and the listing still returns `Ok`. -/
theorem enumeration_error_slot_dropped (parent : String) (pre post : List Item) :
    calc_items (pre ++ Item.err :: post) = calc_items (pre ++ post)
    ∧ scan_directory_fast parent (.ok (pre ++ Item.err :: post))
        = scan_directory_fast parent (.ok (pre ++ post))
    ∧ ∃ es, scan_directory_fast parent (.ok (pre ++ Item.err :: post)) = .ok es := by
  refine ⟨by simp [calc_items_append, calc_items], ?_, ⟨_, rfl⟩⟩
  simp [scan_directory_fast, List.filterMap_append, scanEntry]

/-!
The volume enumerator (`get_drives`).
-/

/-- One volume as the OS reports it (`sysinfo::Disk`). -/
structure Disk where
  name : String
  mount_point : String
  total_space : Nat
  available_space : Nat
  file_system : String

structure DriveInfo where
  name : String
  mount_point : String
  total_space : Nat
  available_space : Nat
  used_space : Nat
  file_system : String
deriving Repr, DecidableEq

/-- The command `get_drives`: one `DriveInfo` per reported disk, with
`used_space = total_space.saturating_sub(available_space)`; on `Nat`,
truncated subtraction is exactly `u64::saturating_sub`. -/
def get_drives (disks : List Disk) : List DriveInfo :=
  disks.map fun d =>
    { name := d.name, mount_point := d.mount_point,
      total_space := d.total_space, available_space := d.available_space,
      used_space := d.total_space - d.available_space,
      file_system := d.file_system }

/-- C9: every reported volume has `used_space = total_space -
available_space` when available does not exceed total, `used_space = 0`
when the OS reports more available than total, and in no case
`used_space > total_space`. -/
theorem drives_used_space (disks : List Disk) (info : DriveInfo)
    (h : info ∈ get_drives disks) :
    (info.available_space ≤ info.total_space →
      info.used_space = info.total_space - info.available_space)
    ∧ (info.total_space < info.available_space → info.used_space = 0)
    ∧ info.used_space ≤ info.total_space := by
  simp only [get_drives, List.mem_map] at h
  obtain ⟨d, _, rfl⟩ := h
  exact ⟨fun _ => rfl,
    fun hlt => Nat.sub_eq_zero_of_le (Nat.le_of_lt hlt),
    Nat.sub_le _ _⟩

theorem drives_used_space_witness :
    (⟨"C:", "C:/", 10, 4, 6, "NTFS"⟩ : DriveInfo)
        ∈ get_drives [⟨"C:", "C:/", 10, 4, "NTFS"⟩]
    ∧ (⟨"C:", "C:/", 10, 4, 6, "NTFS"⟩ : DriveInfo).used_space
        ≤ (⟨"C:", "C:/", 10, 4, 6, "NTFS"⟩ : DriveInfo).total_space := by
  have hm : (⟨"C:", "C:/", 10, 4, 6, "NTFS"⟩ : DriveInfo)
      ∈ get_drives [⟨"C:", "C:/", 10, 4, "NTFS"⟩] := by
    simp [get_drives]
  exact ⟨hm, (drives_used_space _ _ hm).2.2⟩

/-!
Termination of the recursive walk (claim C8).

`calc_size_fuel` is the same walk forced to give up (`none`) when its
directory-nesting budget runs out.  That any budget above the subtree's
real directory-nesting depth suffices — and the structural `calc_size` is
reached — expresses that the recursion, which descends only into real
directory entries and never follows symlink targets, terminates whenever
the real-directory graph is acyclic (which the tree model embodies).
-/

mutual

def calc_size_fuel : Nat → Option (List Item) → Option (Nat × Nat)
  | _, none => some (0, 0)
  | 0, some _ => none
  | f + 1, some items => calc_items_fuel f items
termination_by f _ => (f, 0)

def calc_items_fuel : Nat → List Item → Option (Nat × Nat)
  | _, [] => some (0, 0)
  | f, .err :: rest => calc_items_fuel f rest
  | f, .noMeta _ :: rest => calc_items_fuel f rest
  | f, .file _ sz :: rest =>
      match calc_items_fuel f rest with
      | none => none
      | some r => some (sz + r.1, 1 + r.2)
  | f, .dir _ listing :: rest =>
      match calc_size_fuel f listing, calc_items_fuel f rest with
      | some s, some r => some (s.1 + r.1, 1 + s.2 + r.2)
      | _, _ => none
  | f, .other _ _ :: rest =>
      match calc_items_fuel f rest with
      | none => none
      | some r => some (r.1, 1 + r.2)
termination_by f l => (f, l.length + 1)

end

/-- Directory-nesting depth of a subtree: only real, readable directory
children deepen the walk. -/
def depth_items : List Item → Nat
  | [] => 0
  | .dir _ (some l) :: rest => max (1 + depth_items l) (depth_items rest)
  | _ :: rest => depth_items rest

def depth_listing : Option (List Item) → Nat
  | none => 0
  | some items => 1 + depth_items items

theorem calc_items_fuel_eq :
    ∀ (f : Nat) (items : List Item), depth_items items ≤ f →
      calc_items_fuel f items = some (calc_items items) := by
  intro f
  induction f using Nat.strong_induction_on with
  | _ f IH =>
      intro items
      induction items with
      | nil => intro _; simp [calc_items_fuel, calc_items]
      | cons i rest ihrest =>
          intro h
          cases i with
          | err =>
              simp only [depth_items] at h
              simp [calc_items_fuel, calc_items, ihrest h]
          | noMeta n =>
              simp only [depth_items] at h
              simp [calc_items_fuel, calc_items, ihrest h]
          | file n sz =>
              simp only [depth_items] at h
              simp [calc_items_fuel, calc_items, ihrest h]
          | other n t =>
              simp only [depth_items] at h
              simp [calc_items_fuel, calc_items, ihrest h]
          | dir n listing =>
              cases listing with
              | none =>
                  simp only [depth_items] at h
                  simp [calc_items_fuel, calc_items, calc_size_fuel, ihrest h]
              | some l =>
                  simp only [depth_items, Nat.max_le] at h
                  obtain ⟨hl, hrest⟩ := h
                  obtain ⟨g, rfl⟩ : ∃ g, f = g + 1 := ⟨f - 1, by omega⟩
                  have hsub : calc_items_fuel g l = some (calc_items l) :=
                    IH g (by omega) l (by omega)
                  simp [calc_items_fuel, calc_items, calc_size_fuel, hsub,
                    ihrest hrest]

/-- C8: the recursive walk terminates: on a filesystem whose real
(non-symlink) directory graph is acyclic — embodied by the tree model —
any fuel budget above the subtree's directory-nesting depth lets the
fuel-bounded walk finish, with the structural `calc_size` result, instead
of exhausting its budget. -/
theorem aggregate_size_terminates (root : Option (List Item)) (f : Nat)
    (h : depth_listing root ≤ f) :
    calc_size_fuel f root = some (calc_size root) := by
  cases root with
  | none => cases f <;> simp [calc_size_fuel, calc_size]
  | some items =>
      simp only [depth_listing] at h
      obtain ⟨g, rfl⟩ : ∃ g, f = g + 1 := ⟨f - 1, by omega⟩
      simp only [calc_size_fuel, calc_size]
      exact calc_items_fuel_eq g items (by omega)

theorem aggregate_size_terminates_witness :
    depth_listing (some [Item.dir "B" (some [Item.file "f" 5])]) ≤ 2
    ∧ calc_size_fuel 2 (some [Item.dir "B" (some [Item.file "f" 5])])
        = some (calc_size (some [Item.dir "B" (some [Item.file "f" 5])])) := by
  have hd : depth_listing (some [Item.dir "B" (some [Item.file "f" 5])]) ≤ 2 := by
    simp [depth_listing, depth_items]
  exact ⟨hd, aggregate_size_terminates _ 2 hd⟩
